import Mathlib

/-!
Verification of the SHA-256 implementation in `src/sha256.rs` against its
natural-language specification.

Shallow embedding of `src/sha256.rs`. Machine words (`u32`, `u64`) are
modelled as `Nat` with explicit `% 2^32` (resp. truncated big-endian byte
extraction) wherever the Rust code wraps. Byte sequences (`&[u8]`, `Vec<u8>`)
are `List Nat`. All definitions are executable.
-/

/-- `2^32`, the wraparound modulus for 32-bit words. -/
def M32 : Nat := 4294967296

/-- Wrapping 32-bit addition, i.e. `u32::wrapping_add`. -/
def wadd (x y : Nat) : Nat := (x + y) % M32

/-- `rotr(n, x)`: rotate right. The Rust code computes
`x.wrapping_shr(n) | x.wrapping_shl(w - n)` with `w = 32`; the wrapping
shifts reduce the shift amount modulo 32, which is modelled by the `% 32`
on each shift amount. -/
def rotr (n x : Nat) : Nat :=
  (x >>> (n % 32)) ||| ((x <<< ((32 - n) % 32)) % M32)

/-- `shr(n, x)`: logical right shift, i.e. `x.wrapping_shr(n)`. -/
def shr (n x : Nat) : Nat := x >>> (n % 32)

/-- `ch(x, y, z) = (x & y) ^ (!x & z)`; `!x` on `u32` is `x ^ 0xffffffff`. -/
def ch (x y z : Nat) : Nat := (x &&& y) ^^^ ((x ^^^ 0xffffffff) &&& z)

/-- `maj(x, y, z) = (x & y) ^ (x & z) ^ (y & z)`. -/
def maj (x y z : Nat) : Nat := (x &&& y) ^^^ (x &&& z) ^^^ (y &&& z)

/-- `Σ0` of FIPS 180-4 (`sum_0_256` in the source). -/
def sum_0_256 (x : Nat) : Nat := rotr 2 x ^^^ rotr 13 x ^^^ rotr 22 x

/-- `Σ1` of FIPS 180-4 (`sum_1_256` in the source). -/
def sum_1_256 (x : Nat) : Nat := rotr 6 x ^^^ rotr 11 x ^^^ rotr 25 x

/-- `σ0` of FIPS 180-4 (`delta_0_256` in the source). -/
def delta_0_256 (x : Nat) : Nat := rotr 7 x ^^^ rotr 18 x ^^^ shr 3 x

/-- `σ1` of FIPS 180-4 (`delta_1_256` in the source). -/
def delta_1_256 (x : Nat) : Nat := rotr 17 x ^^^ rotr 19 x ^^^ shr 10 x

/-- The 64 round constants `WORDS_K` (FIPS 180-4, 4.2.2). -/
def WORDS_K : List Nat :=
  [0x428a2f98, 0x71374491, 0xb5c0fbcf, 0xe9b5dba5, 0x3956c25b, 0x59f111f1, 0x923f82a4, 0xab1c5ed5] ++
  [0xd807aa98, 0x12835b01, 0x243185be, 0x550c7dc3, 0x72be5d74, 0x80deb1fe, 0x9bdc06a7, 0xc19bf174] ++
  [0xe49b69c1, 0xefbe4786, 0x0fc19dc6, 0x240ca1cc, 0x2de92c6f, 0x4a7484aa, 0x5cb0a9dc, 0x76f988da] ++
  [0x983e5152, 0xa831c66d, 0xb00327c8, 0xbf597fc7, 0xc6e00bf3, 0xd5a79147, 0x06ca6351, 0x14292967] ++
  [0x27b70a85, 0x2e1b2138, 0x4d2c6dfc, 0x53380d13, 0x650a7354, 0x766a0abb, 0x81c2c92e, 0x92722c85] ++
  [0xa2bfe8a1, 0xa81a664b, 0xc24b8b70, 0xc76c51a3, 0xd192e819, 0xd6990624, 0xf40e3585, 0x106aa070] ++
  [0x19a4c116, 0x1e376c08, 0x2748774c, 0x34b0bcb5, 0x391c0cb3, 0x4ed8aa4a, 0x5b9cca4f, 0x682e6ff3] ++
  [0x748f82ee, 0x78a5636f, 0x84c87814, 0x8cc70208, 0x90befffa, 0xa4506ceb, 0xbef9a3f7, 0xc67178f2]

/-- Big-endian bytes of a `u64`, i.e. `(l as u64).to_be_bytes()`; the byte
extraction truncates anything above bit 63 exactly as the `as u64` cast does. -/
def u64be (l : Nat) : List Nat :=
  [(l >>> 56) % 256, (l >>> 48) % 256, (l >>> 40) % 256, (l >>> 32) % 256,
   (l >>> 24) % 256, (l >>> 16) % 256, (l >>> 8) % 256, l % 256]

/-- Big-endian bytes of a `u32`, i.e. `h.to_be_bytes()`. -/
def u32be (x : Nat) : List Nat :=
  [(x >>> 24) % 256, (x >>> 16) % 256, (x >>> 8) % 256, x % 256]

/-- `padding(message)`: append `0x80`, then `k` zero bytes with
`k = ((512 + 448 - (l_bits + 1) % 512) % 512) / 8`, then the bit length as a
big-endian `u64` (FIPS 180-4, 5.1.1). -/
def padding (message : List Nat) : List Nat :=
  let l_bits := message.length * 8
  let k_bits := (512 + 448 - (l_bits + 1) % 512) % 512
  let k := k_bits / 8
  message ++ [0x80] ++ List.replicate k 0 ++ u64be l_bits

/-- The 8-word hash state `[u32; 8]`. -/
structure State8 where
  w0 : Nat
  w1 : Nat
  w2 : Nat
  w3 : Nat
  w4 : Nat
  w5 : Nat
  w6 : Nat
  w7 : Nat
deriving DecidableEq

/-- Initial hash value `IHV` (FIPS 180-4, 5.3.3). -/
def IHV : State8 :=
  ⟨0x6a09e667, 0xbb67ae85, 0x3c6ef372, 0xa54ff53a, 0x510e527f, 0x9b05688c, 0x1f83d9ab, 0x5be0cd19⟩

/-- Iteration core of `message.chunks(64)`: the fuel argument bounds the
number of chunks; `message_to_blocks` passes the list length, which always
suffices since every step consumes at least one element. -/
def chunks_go : Nat → List Nat → List (List Nat)
  | 0, _ => []
  | fuel + 1, l => if l = [] then [] else l.take 64 :: chunks_go fuel (l.drop 64)

/-- `message_to_blocks(message)`: split into 64-byte chunks (FIPS 180-4, 5.2.1). -/
def message_to_blocks (message : List Nat) : List (List Nat) :=
  chunks_go message.length message

/-- `block_to_words(block)`: split a block into big-endian 32-bit words
(`chunks(4)` + `u32::from_be_bytes`). -/
def block_to_words : List Nat → List Nat
  | b0 :: b1 :: b2 :: b3 :: rest =>
      (b0 * 16777216 + b1 * 65536 + b2 * 256 + b3) :: block_to_words rest
  | _ => []

/-- The schedule-extension loop of `compute_hash`: `n` more words are pushed,
each computed from the entries 2, 7, 15 and 16 places before the push index
(which is the current length, as in the Rust `for index_t in 16..64` loop). -/
def extend_schedule : Nat → List Nat → List Nat
  | 0, ws => ws
  | n + 1, ws =>
      let t := ws.length
      let w_t := wadd (wadd (wadd (delta_1_256 (ws.getD (t - 2) 0))
                  (ws.getD (t - 7) 0)) (delta_0_256 (ws.getD (t - 15) 0)))
                  (ws.getD (t - 16) 0)
      extend_schedule n (ws ++ [w_t])

/-- The full 64-entry message schedule `message_schedule_w` of one block. -/
def message_schedule (block : List Nat) : List Nat :=
  extend_schedule 48 (block_to_words block)

/-- The working variables `a..h` of the round loop. -/
structure Vars where
  a : Nat
  b : Nat
  c : Nat
  d : Nat
  e : Nat
  f : Nat
  g : Nat
  h : Nat
deriving DecidableEq

/-- One iteration of the `for t in 0..64` round loop of `compute_hash`. -/
def round_t (ws : List Nat) (v : Vars) (t : Nat) : Vars :=
  let temp_1 := wadd (wadd (wadd (wadd v.h (sum_1_256 v.e)) (ch v.e v.f v.g))
                  (WORDS_K.getD t 0)) (ws.getD t 0)
  let temp_2 := wadd (sum_0_256 v.a) (maj v.a v.b v.c)
  { a := wadd temp_1 temp_2, b := v.a, c := v.b, d := v.c,
    e := wadd v.d temp_1, f := v.e, g := v.f, h := v.g }

/-- Processing of one block inside `compute_hash`'s main loop: build the
schedule, run 64 rounds from the current state, add the final working
variables back into the state (all wrapping). -/
def process_block (hv : State8) (block : List Nat) : State8 :=
  let ws := message_schedule block
  let v0 : Vars := ⟨hv.w0, hv.w1, hv.w2, hv.w3, hv.w4, hv.w5, hv.w6, hv.w7⟩
  let v := (List.range 64).foldl (round_t ws) v0
  ⟨wadd v.a hv.w0, wadd v.b hv.w1, wadd v.c hv.w2, wadd v.d hv.w3,
   wadd v.e hv.w4, wadd v.f hv.w5, wadd v.g hv.w6, wadd v.h hv.w7⟩

/-- `compute_hash(blocks)`: thread the state through every block starting
from `IHV`, then serialize the last state big-endian (FIPS 180-4, 6.2.2). -/
def compute_hash (blocks : List (List Nat)) : List Nat :=
  let final := blocks.foldl process_block IHV
  u32be final.w0 ++ u32be final.w1 ++ u32be final.w2 ++ u32be final.w3 ++
  u32be final.w4 ++ u32be final.w5 ++ u32be final.w6 ++ u32be final.w7

/-- `sha256(message)`: pad, split into blocks, hash. -/
def sha256 (message : List Nat) : List Nat :=
  compute_hash (message_to_blocks (padding message))

/-!
Specification-side definitions, used to state the refinement claim about the
per-block compression step. These follow the wording of the spec, not the
source: the schedule is a recurrence `w : Nat → Nat` over the block, each
round computes `T1`/`T2` with a single wraparound `% 2^32` on the full sum,
and the new state is the elementwise wrapping sum.
-/

/-- Specification schedule: words 0-15 are the big-endian 32-bit groups of
the block (group `t` is bytes `4t..4t+3`); words from 16 on satisfy
`w[t] = σ1(w[t-2]) + w[t-7] + σ0(w[t-15]) + w[t-16]` wrapping modulo `2^32`. -/
def spec_w (block : List Nat) (t : Nat) : Nat :=
  if t < 16 then
    let g := block.drop (4 * t)
    g.getD 0 0 * 16777216 + g.getD 1 0 * 65536 + g.getD 2 0 * 256 + g.getD 3 0
  else
    (delta_1_256 (spec_w block (t - 2)) + spec_w block (t - 7) +
      delta_0_256 (spec_w block (t - 15)) + spec_w block (t - 16)) % M32
termination_by t
decreasing_by all_goals omega

/-- Specification round `t`: `T1 = h + Σ1(e) + ch(e,f,g) + K[t] + w[t]`,
`T2 = Σ0(a) + maj(a,b,c)`, then
`(a,b,c,d,e,f,g,h) ← (T1+T2, a, b, c, d+T1, e, f, g)`, all modulo `2^32`. -/
def spec_round (w : Nat → Nat) (v : Vars) (t : Nat) : Vars :=
  let T1 := (v.h + sum_1_256 v.e + ch v.e v.f v.g + WORDS_K.getD t 0 + w t) % M32
  let T2 := (sum_0_256 v.a + maj v.a v.b v.c) % M32
  { a := (T1 + T2) % M32, b := v.a, c := v.b, d := v.c,
    e := (v.d + T1) % M32, f := v.e, g := v.f, h := v.g }

/-- Specification per-block state update: 64 rounds from the current state,
then the elementwise wrapping sum of old state and final working variables. -/
def spec_block_step (st : State8) (block : List Nat) : State8 :=
  let w := spec_w block
  let v := (List.range 64).foldl (spec_round w)
    ⟨st.w0, st.w1, st.w2, st.w3, st.w4, st.w5, st.w6, st.w7⟩
  ⟨(v.a + st.w0) % M32, (v.b + st.w1) % M32, (v.c + st.w2) % M32, (v.d + st.w3) % M32,
   (v.e + st.w4) % M32, (v.f + st.w5) % M32, (v.g + st.w6) % M32, (v.h + st.w7) % M32⟩

/-! Helper lemmas. -/

lemma b2w_length : ∀ l : List Nat, (block_to_words l).length = l.length / 4 := by
  intro l
  induction l using block_to_words.induct with
  | case1 b0 b1 b2 b3 rest ih => simp [block_to_words, ih]; omega
  | case2 l h =>
      rcases l with _ | ⟨b0, _ | ⟨b1, _ | ⟨b2, _ | ⟨b3, rest⟩⟩⟩⟩
      · simp [block_to_words]
      · simp [block_to_words]
      · simp [block_to_words]
      · simp [block_to_words]
      · exact absurd rfl (h b0 b1 b2 b3 rest)

lemma range_map_getD (f : Nat → Nat) (m i : Nat) (h : i < m) :
    ((List.range m).map f).getD i 0 = f i := by
  rw [List.getD_eq_getElem _ _ (by simpa using h)]
  simp

lemma b2w_getD : ∀ (t : Nat) (block : List Nat), 4 * t + 3 < block.length →
    (block_to_words block).getD t 0 =
      (block.drop (4 * t)).getD 0 0 * 16777216 + (block.drop (4 * t)).getD 1 0 * 65536 +
      (block.drop (4 * t)).getD 2 0 * 256 + (block.drop (4 * t)).getD 3 0 := by
  intro t
  induction t with
  | zero =>
      intro block h
      rcases block with _ | ⟨b0, _ | ⟨b1, _ | ⟨b2, _ | ⟨b3, rest⟩⟩⟩⟩ <;>
        simp only [List.length_cons, List.length_nil] at h
      · omega
      · omega
      · omega
      · omega
      · simp [block_to_words]
  | succ t ih =>
      intro block h
      rcases block with _ | ⟨b0, _ | ⟨b1, _ | ⟨b2, _ | ⟨b3, rest⟩⟩⟩⟩ <;>
        simp only [List.length_cons, List.length_nil] at h
      · omega
      · omega
      · omega
      · omega
      · rw [show 4 * (t + 1) = 4 * t + 1 + 1 + 1 + 1 from by ring]
        simp only [List.drop_succ_cons, block_to_words, List.getD_cons_succ]
        exact ih rest (by omega)

lemma extend_schedule_length : ∀ (n : Nat) (ws : List Nat),
    (extend_schedule n ws).length = ws.length + n := by
  intro n
  induction n with
  | zero => intro ws; rfl
  | succ n ih => intro ws; rw [extend_schedule, ih]; simp; omega

lemma extend_schedule_spec : ∀ (n m : Nat) (block : List Nat), 16 ≤ m → m + n ≤ 64 →
    extend_schedule n ((List.range m).map (spec_w block)) =
      (List.range (m + n)).map (spec_w block) := by
  intro n
  induction n with
  | zero => intro m block _ _; rfl
  | succ n ih =>
      intro m block h16 h64
      rw [extend_schedule]
      have hlen : ((List.range m).map (spec_w block)).length = m := by simp
      have hget : ∀ i, i < m → ((List.range m).map (spec_w block)).getD i 0 = spec_w block i :=
        fun i hi => range_map_getD _ m i hi
      rw [hlen, hget (m - 2) (by omega), hget (m - 7) (by omega), hget (m - 15) (by omega),
        hget (m - 16) (by omega)]
      have hw : wadd (wadd (wadd (delta_1_256 (spec_w block (m - 2))) (spec_w block (m - 7)))
          (delta_0_256 (spec_w block (m - 15)))) (spec_w block (m - 16)) = spec_w block m := by
        conv_rhs => rw [spec_w]
        rw [if_neg (by omega : ¬ m < 16)]
        simp only [wadd, M32]
        omega
      rw [hw, show (List.range m).map (spec_w block) ++ [spec_w block m] =
        (List.range (m + 1)).map (spec_w block) from by rw [List.range_succ]; simp]
      rw [ih (m + 1) block (by omega) (by omega)]
      have : m + 1 + n = m + (n + 1) := by omega
      rw [this]

lemma message_schedule_spec (block : List Nat) (hb : block.length = 64) :
    message_schedule block = (List.range 64).map (spec_w block) := by
  have hbase : block_to_words block = (List.range 16).map (spec_w block) := by
    apply List.ext_getElem
    · rw [b2w_length, hb]; simp
    · intro i h1 h2
      have hi : i < 16 := by rw [b2w_length, hb] at h1; omega
      rw [← List.getD_eq_getElem _ 0 h1, ← List.getD_eq_getElem _ 0 h2,
        b2w_getD i block (by omega), range_map_getD _ 16 i hi, spec_w, if_pos hi]
  rw [message_schedule, hbase, extend_schedule_spec 48 16 block (by omega) (by omega)]

lemma round_congr (ws : List Nat) (w : Nat → Nat) (v : Vars) (t : Nat)
    (hw : ws.getD t 0 = w t) : round_t ws v t = spec_round w v t := by
  simp only [round_t, spec_round, wadd, M32, hw, Vars.mk.injEq]
  refine ⟨by omega, trivial, trivial, trivial, by omega, trivial, trivial, trivial⟩

lemma foldl_congr_mem : ∀ (l : List Nat) (f g : Vars → Nat → Vars) (v : Vars),
    (∀ v t, t ∈ l → f v t = g v t) → l.foldl f v = l.foldl g v := by
  intro l
  induction l with
  | nil => intros; rfl
  | cons a l ih =>
      intro f g v h
      simp only [List.foldl_cons]
      rw [h v a (by simp)]
      exact ih f g _ (fun v t ht => h v t (by simp [ht]))

lemma chunks_go_nil : ∀ fuel, chunks_go fuel [] = [] := by
  intro fuel
  cases fuel <;> simp [chunks_go]

lemma chunks_go_ne_nil (fuel : Nat) (l : List Nat) (hl : l ≠ [])
    (hf : l.length ≤ 64 * fuel) : chunks_go fuel l ≠ [] := by
  cases fuel with
  | zero =>
      have : l.length = 0 := by omega
      exact absurd (List.eq_nil_of_length_eq_zero this) hl
  | succ fuel => simp [chunks_go, hl]

lemma chunks_go_spec : ∀ (fuel : Nat) (l : List Nat), l.length ≤ 64 * fuel →
    l.length % 64 = 0 →
    (∀ b ∈ chunks_go fuel l, b.length = 64) ∧
    (l ≠ [] → ((chunks_go fuel l).getLast?.map List.length).getD 0 = 64) := by
  intro fuel
  induction fuel with
  | zero =>
      intro l hf hm
      have : l = [] := List.eq_nil_of_length_eq_zero (by omega)
      subst this
      exact ⟨by simp [chunks_go], fun h => absurd rfl h⟩
  | succ fuel ih =>
      intro l hf hm
      by_cases hl : l = []
      · subst hl
        exact ⟨by simp [chunks_go], fun h => absurd rfl h⟩
      · have hpos : 0 < l.length := List.length_pos.mpr hl
        have h64 : 64 ≤ l.length := by omega
        have hdrop_len : (l.drop 64).length = l.length - 64 := by simp
        have ihd := ih (l.drop 64) (by omega) (by omega)
        rw [show chunks_go (fuel + 1) l = l.take 64 :: chunks_go fuel (l.drop 64) from by
          simp [chunks_go, hl]]
        constructor
        · intro b hb
          rcases List.mem_cons.mp hb with hb | hb
          · subst hb; simp; omega
          · exact ihd.1 b hb
        · intro _
          by_cases hd : l.drop 64 = []
          · rw [hd, chunks_go_nil]
            simp
            omega
          · have hne := chunks_go_ne_nil fuel (l.drop 64) hd (by omega)
            rcases hcs : chunks_go fuel (l.drop 64) with _ | ⟨c, cs⟩
            · exact absurd hcs hne
            · rw [List.getLast?_cons_cons]
              rw [← hcs]
              exact ihd.2 hd

lemma chunks_go_length_128 (fuel : Nat) (l : List Nat) (hl : l.length = 128)
    (hf : 2 ≤ fuel) : (chunks_go fuel l).length = 2 := by
  match fuel, hf with
  | f + 2, _ =>
    have h1 : l ≠ [] := List.length_pos.mp (by omega)
    rw [show chunks_go (f + 2) l = l.take 64 :: chunks_go (f + 1) (l.drop 64) from by
      simp [chunks_go, h1]]
    have hd : (l.drop 64).length = 64 := by simp [hl]
    have h2 : l.drop 64 ≠ [] := List.length_pos.mp (by omega)
    rw [show chunks_go (f + 1) (l.drop 64) =
        (l.drop 64).take 64 :: chunks_go f ((l.drop 64).drop 64) from by
      simp [chunks_go, h2]]
    have h3 : (l.drop 64).drop 64 = [] := List.eq_nil_of_length_eq_zero (by simp [hl])
    rw [h3, chunks_go_nil]
    rfl

lemma padding_length_eq (m : List Nat) :
    (padding m).length = m.length + 9 + (512 + 448 - (m.length * 8 + 1) % 512) % 512 / 8 := by
  simp only [padding, u64be, List.length_append, List.length_replicate, List.length_cons,
    List.length_nil]
  omega

/-!
Claim theorems.
-/

set_option maxRecDepth 1000000 in
/-- Claim C1: `sha256` of the empty message is the 32-byte digest with hex
encoding `e3b0c44298fc1c149afbf4c8996fb92427ae41e4649b934ca495991b7852b855`,
and `sha256` of the 3-byte message `"abc"` (bytes `61 62 63`) is the 32-byte
digest with hex encoding
`ba7816bf8f01cfea414140de5dae2223b00361a396177a9cb410ff61f20015ad`. -/
theorem sha256_known_answer_vectors :
    sha256 [] =
      [0xe3, 0xb0, 0xc4, 0x42, 0x98, 0xfc, 0x1c, 0x14, 0x9a, 0xfb, 0xf4, 0xc8,
       0x99, 0x6f, 0xb9, 0x24, 0x27, 0xae, 0x41, 0xe4, 0x64, 0x9b, 0x93, 0x4c,
       0xa4, 0x95, 0x99, 0x1b, 0x78, 0x52, 0xb8, 0x55] ∧
    sha256 [0x61, 0x62, 0x63] =
      [0xba, 0x78, 0x16, 0xbf, 0x8f, 0x01, 0xcf, 0xea, 0x41, 0x41, 0x40, 0xde,
       0x5d, 0xae, 0x22, 0x23, 0xb0, 0x03, 0x61, 0xa3, 0x96, 0x17, 0x7a, 0x9c,
       0xb4, 0x10, 0xff, 0x61, 0xf2, 0x00, 0x15, 0xad] := by
  constructor <;> decide

/-- Claim C2: for every 64-byte block and every 8-word running state, the
per-block step of `compute_hash` (schedule expansion by push-loop, 64 rounds
with chained `wrapping_add`, elementwise wrapping state update) computes
exactly the state update written in the specification: schedule words 0-15
are the big-endian 32-bit groups of the block, words 16-63 satisfy the
`σ1/σ0` recurrence, the rounds apply `T1`/`T2` and the shift
`(a,b,c,d,e,f,g,h) ← (T1+T2, a, b, c, d+T1, e, f, g)`, and the new state is
the elementwise wrapping sum of old state and final working variables. -/
theorem process_block_matches_spec (block : List Nat) (st : State8)
    (hb : block.length = 64) : process_block st block = spec_block_step st block := by
  have hs := message_schedule_spec block hb
  simp only [process_block, spec_block_step]
  rw [foldl_congr_mem (List.range 64) (round_t (message_schedule block))
    (spec_round (spec_w block)) _ (fun v t ht => round_congr _ _ v t
      (by rw [hs]; exact range_map_getD (spec_w block) 64 t (List.mem_range.mp ht)))]
  rfl

/-- Witness for C2: the theorem applied to the all-zero 64-byte block and the
initial hash value. -/
theorem process_block_matches_spec_witness :
    (List.replicate 64 (0 : Nat)).length = 64 ∧
    process_block IHV (List.replicate 64 0) = spec_block_step IHV (List.replicate 64 0) :=
  ⟨by decide, process_block_matches_spec (List.replicate 64 0) IHV (by decide)⟩

/-- Claim C3: for every byte sequence `m`, the length of `padding m` is a
multiple of 64 and is at least `m.length + 9`. -/
theorem padding_length_invariant (m : List Nat) :
    (padding m).length % 64 = 0 ∧ m.length + 9 ≤ (padding m).length := by
  have := padding_length_eq m
  omega

/-- Counterexample for C4: the congruence the claim uses to pin down the
zero-fill count, `(len(m)*8 + 1 + 8k) ≡ 448 (mod 512)`, is satisfied by no
`k` at all — already for the empty message no `k` makes the claimed
decomposition of `padding []` well-defined, since `8·0 + 1 + 8k` is odd while
`448` is even. -/
theorem padding_claim_congruence_unsatisfiable :
    ¬ ∃ k, (8 * ([] : List Nat).length + 1 + 8 * k) % 512 = 448 ∧
      padding [] = [] ++ [0x80] ++ List.replicate k 0 ++ u64be (8 * ([] : List Nat).length) := by
  rintro ⟨k, hk, -⟩
  simp only [List.length_nil] at hk
  omega

/-- Claim C4 (amended): for every byte sequence `m`, `padding m` equals `m`
followed by a single `0x80` byte, followed by the minimum number `k ≥ 0` of
zero bytes such that `(len(m)*8 + 8 + 8k) ≡ 448 (mod 512)`, followed by the
original bit-length `8·len(m)` encoded as a 64-bit big-endian integer in the
final 8 bytes. -/
theorem padding_structure_minimal_zero_fill (m : List Nat) :
    ∃ k, ((8 * m.length + 8 + 8 * k) % 512 = 448 ∧
        ∀ j, (8 * m.length + 8 + 8 * j) % 512 = 448 → k ≤ j) ∧
      padding m = m ++ [0x80] ++ List.replicate k 0 ++ u64be (8 * m.length) := by
  refine ⟨(512 + 448 - (m.length * 8 + 1) % 512) % 512 / 8,
    ⟨by omega, fun j hj => by omega⟩, ?_⟩
  rw [padding, Nat.mul_comm 8 m.length]

set_option maxRecDepth 1000000 in
/-- Counterexample for C5: the all-zero 56-byte message pads to 128 bytes,
not to the claimed single 64-byte block. -/
theorem padding_56_bytes_not_one_block :
    (padding (List.replicate 56 0)).length = 128 ∧
    (padding (List.replicate 56 0)).length ≠ 64 := by
  constructor <;> decide

/-- Claim C5 (amended): for every message of exactly 56 bytes (448 bits),
padding produces exactly 128 bytes, i.e. the padded message consists of
exactly two 64-byte blocks (the `0x80` marker and the length field no longer
fit in the first block). -/
theorem padding_56_bytes_two_blocks (m : List Nat) (h : m.length = 56) :
    (padding m).length = 128 ∧ (message_to_blocks (padding m)).length = 2 := by
  have hlen := padding_length_eq m
  have h128 : (padding m).length = 128 := by omega
  refine ⟨h128, ?_⟩
  rw [message_to_blocks]
  exact chunks_go_length_128 _ _ h128 (by omega)

set_option maxRecDepth 1000000 in
/-- Witness for C5 (amended): the theorem applied to the all-zero 56-byte
message. -/
theorem padding_56_bytes_two_blocks_witness :
    (List.replicate 56 (0 : Nat)).length = 56 ∧
    ((padding (List.replicate 56 0)).length = 128 ∧
      (message_to_blocks (padding (List.replicate 56 0))).length = 2) :=
  ⟨by decide, padding_56_bytes_two_blocks (List.replicate 56 0) (by decide)⟩

/-- Claim C7: running the compression stage on an empty block sequence is the
identity on the hash state: the fold performs no round and leaves `IHV`
unchanged, and `compute_hash []` is exactly `IHV` serialized as 32 big-endian
bytes. -/
theorem compute_hash_empty_identity :
    List.foldl process_block IHV [] = IHV ∧
    compute_hash [] =
      [0x6a, 0x09, 0xe6, 0x67, 0xbb, 0x67, 0xae, 0x85, 0x3c, 0x6e, 0xf3, 0x72,
       0xa5, 0x4f, 0xf5, 0x3a, 0x51, 0x0e, 0x52, 0x7f, 0x9b, 0x05, 0x68, 0x8c,
       0x1f, 0x83, 0xd9, 0xab, 0x5b, 0xe0, 0xcd, 0x19] := by
  constructor <;> decide

/-- Claim C8: for every byte sequence `m`, the defensive assertion conditions
along `sha256 m` all hold: the padded length is a multiple of 64, the last
64-byte chunk of the padded message has length exactly 64 (the asserted
expression `blocks.last().map(|b| b.len()).unwrap_or(0)` equals 64), and the
message schedule of every block has exactly 64 entries. -/
theorem sha256_assertions_hold (m : List Nat) :
    (padding m).length % 64 = 0 ∧
    (((message_to_blocks (padding m)).getLast?.map List.length).getD 0 = 64) ∧
    (∀ b ∈ message_to_blocks (padding m), (message_schedule b).length = 64) := by
  have hlen := padding_length_eq m
  have hmod : (padding m).length % 64 = 0 := by omega
  have hne : padding m ≠ [] := List.length_pos.mp (by omega)
  have hspec := chunks_go_spec (padding m).length (padding m) (by omega) hmod
  refine ⟨hmod, ?_, ?_⟩
  · rw [message_to_blocks]
    exact hspec.2 hne
  · intro b hb
    rw [message_to_blocks] at hb
    have hb64 := hspec.1 b hb
    rw [message_schedule, extend_schedule_length, b2w_length, hb64]

/-- Claim C9: for every byte sequence `m`, the digest `sha256 m` has length
exactly 32 bytes. -/
theorem sha256_digest_length (m : List Nat) : (sha256 m).length = 32 := by
  simp [sha256, compute_hash, u32be]

/-- Claim C10: for every 32-bit word `x`, `rotr 0 x = x`: rotation by zero is
the identity. At `n = 0` the left-shift amount is `32 - 0 = 32`, and the
equation holds because the wrapping shift reduces that amount modulo 32. -/
theorem rotr_zero_identity (x : Nat) (h : x < M32) : rotr 0 x = x := by
  simp [rotr, Nat.mod_eq_of_lt h, Nat.or_self]

/-- Witness for C10: the theorem applied to `x = 0x12345678`. -/
theorem rotr_zero_identity_witness :
    0x12345678 < M32 ∧ rotr 0 0x12345678 = 0x12345678 :=
  ⟨by decide, rotr_zero_identity 0x12345678 (by decide)⟩
